import Mathlib

/-!
Shallow embedding of `src/main.cpp` (a plagiarism detector over raw character
sequences) and proofs about it.

Texts (`std::string`) are modelled as `List Char`.  `double` results are
modelled exactly: every division in the source divides two integer-valued
quantities, so we carry the exact rational value as an `Option ℚ`, where
`none` models the IEEE quiet NaN produced by `0.0 / 0.0` (the only
division-by-zero the source can perform; it never traps, it yields NaN).
`std::unordered_set<string>` is modelled by set semantics: a duplicate-free
collection where insertion order is irrelevant.
-/

namespace PlagiarismDetector

/-- The inner DP value of `findCommonSubstrings` (main.cpp lines 51-70):
`dpVal s1 s2 i j` is `dp[i][j]`, the length of the longest common suffix of
the first `i` characters of `s1` and the first `j` characters of `s2`
(`dp[i][j] = dp[i-1][j-1] + 1` when `s1[i-1] == s2[j-1]`, else `0`). -/
def dpVal (s1 s2 : List Char) : Nat → Nat → Nat
  | 0, _ => 0
  | _ + 1, 0 => 0
  | i + 1, j + 1 =>
    match s1[i]?, s2[j]? with
    | some a, some b => if a = b then dpVal s1 s2 i j + 1 else 0
    | _, _ => 0

/-- The row-major traversal order of the two nested loops of
`findCommonSubstrings`: all pairs `(i, j)` with `i ≤ m`, `j ≤ n`.
(The C++ loops start at 1; pairs with `i = 0` or `j = 0` never pass the
insertion guard `dp[i][j] ≥ 1`, so including them is harmless.) -/
def indexPairs (m n : Nat) : List (Nat × Nat) :=
  (List.range (m + 1)).flatMap fun i => (List.range (n + 1)).map fun j => (i, j)

/-- Function `findCommonSubstrings` (main.cpp lines 51-70): whenever the characters
match and `dp[i][j] ≥ minLength`, the substring `str1.substr(i - dp[i][j],
dp[i][j])` is inserted into an `unordered_set`; the set is returned as a
vector.  We model the set by the duplicate-free list of inserted strings
(`dedup` keeps the first copy, as `unordered_set::insert` does). -/
def findCommonSubstrings (s1 s2 : List Char) (k : Nat) : List (List Char) :=
  ((indexPairs s1.length s2.length).filterMap fun p =>
    if 0 < dpVal s1 s2 p.1 p.2 ∧ k ≤ dpVal s1 s2 p.1 p.2 then
      some ((s1.drop (p.1 - dpVal s1 s2 p.1 p.2)).take (dpVal s1 s2 p.1 p.2))
    else none).dedup

/-- Function `similarityMetric` (main.cpp lines 73-82): the sum of the lengths of the
distinct common substrings divided by `max(|s1|, |s2|)`.  When both texts
are empty the source computes `0.0 / 0.0`, i.e. IEEE NaN, modelled as
`none`; otherwise the value is the exact quotient `mkRat total maxLength`
(equal to `(total : ℚ) / maxLength` by `Rat.mkRat_eq_div`). -/
def similarityMetric (s1 s2 : List Char) (k : Nat) : Option ℚ :=
  let total : Nat := ((findCommonSubstrings s1 s2 k).map List.length).sum
  let maxLength : Nat := max s1.length s2.length
  if maxLength = 0 then none else some (mkRat total maxLength)

@[simp] theorem dpVal_zero_left (s1 s2 : List Char) (j : Nat) : dpVal s1 s2 0 j = 0 := by
  cases j <;> rfl

@[simp] theorem dpVal_zero_right (s1 s2 : List Char) (i : Nat) : dpVal s1 s2 i 0 = 0 := by
  cases i <;> rfl

theorem dpVal_le_left (s1 s2 : List Char) : ∀ i j, dpVal s1 s2 i j ≤ i
  | 0, _ => by simp
  | _ + 1, 0 => by simp
  | i + 1, j + 1 => by
    show dpVal s1 s2 (i+1) (j+1) ≤ i + 1
    unfold dpVal
    rcases h1 : s1[i]? with _ | a <;> rcases h2 : s2[j]? with _ | b <;> simp
    split
    · exact Nat.succ_le_succ (dpVal_le_left s1 s2 i j)
    · simp

theorem dpVal_le_right (s1 s2 : List Char) : ∀ i j, dpVal s1 s2 i j ≤ j
  | 0, _ => by simp
  | _ + 1, 0 => by simp
  | i + 1, j + 1 => by
    unfold dpVal
    rcases h1 : s1[i]? with _ | a <;> rcases h2 : s2[j]? with _ | b <;> simp
    split
    · exact Nat.succ_le_succ (dpVal_le_right s1 s2 i j)
    · simp

theorem dpVal_match (s1 s2 : List Char) : ∀ i j, ∀ t < dpVal s1 s2 i j,
    s1[i - dpVal s1 s2 i j + t]? = s2[j - dpVal s1 s2 i j + t]? ∧
      (s1[i - dpVal s1 s2 i j + t]?).isSome
  | 0, j, t, ht => by simp at ht
  | i + 1, 0, t, ht => by simp at ht
  | i + 1, j + 1, t, ht => by
    revert ht
    unfold dpVal
    rcases h1 : s1[i]? with _ | a <;> rcases h2 : s2[j]? with _ | b <;> simp
    split
    · rename_i hab
      subst hab
      intro ht
      rcases Nat.lt_succ_iff_lt_or_eq.mp ht with ht' | rfl
      · have := dpVal_match s1 s2 i j t ht'
        have e1 : i + 1 - (dpVal s1 s2 i j + 1) = i - dpVal s1 s2 i j := by omega
        have e2 : j + 1 - (dpVal s1 s2 i j + 1) = j - dpVal s1 s2 i j := by omega
        rw [e1, e2]
        exact this
      · have hdi := dpVal_le_left s1 s2 i j
        have hdj := dpVal_le_right s1 s2 i j
        have e1 : i + 1 - (dpVal s1 s2 i j + 1) + dpVal s1 s2 i j = i := by omega
        have e2 : j + 1 - (dpVal s1 s2 i j + 1) + dpVal s1 s2 i j = j := by omega
        rw [e1, e2, h1, h2]
        simp
    · simp

theorem dpVal_maximal (s1 s2 : List Char) : ∀ i j, i ≤ s1.length → j ≤ s2.length →
    i - dpVal s1 s2 i j = 0 ∨ j - dpVal s1 s2 i j = 0 ∨
      s1[i - dpVal s1 s2 i j - 1]? ≠ s2[j - dpVal s1 s2 i j - 1]?
  | 0, j, _, _ => by simp
  | i + 1, 0, _, _ => by simp
  | i + 1, j + 1, hi, hj => by
    have hi' : i < s1.length := by omega
    have hj' : j < s2.length := by omega
    unfold dpVal
    rcases h1 : s1[i]? with _ | a
    · exact absurd h1 (by simp [List.getElem?_eq_some_iff]; omega)
    rcases h2 : s2[j]? with _ | b
    · exact absurd h2 (by simp [List.getElem?_eq_some_iff]; omega)
    simp only
    split
    · rename_i hab
      subst hab
      have := dpVal_maximal s1 s2 i j (by omega) (by omega)
      have e1 : i + 1 - (dpVal s1 s2 i j + 1) = i - dpVal s1 s2 i j := by omega
      have e2 : j + 1 - (dpVal s1 s2 i j + 1) = j - dpVal s1 s2 i j := by omega
      rw [e1, e2]
      exact this
    · rename_i hab
      right; right
      simpa [h1, h2] using hab

theorem dpVal_ge (s1 s2 : List Char) : ∀ L i j, L ≤ i → L ≤ j →
    (∀ t < L, s1[i - L + t]? = s2[j - L + t]? ∧ (s1[i - L + t]?).isSome) →
    L ≤ dpVal s1 s2 i j := by
  intro L
  induction L with
  | zero => intro i j _ _ _; exact Nat.zero_le _
  | succ L ih =>
    intro i j hi hj h
    obtain ⟨i', rfl⟩ : ∃ i', i = i' + 1 := ⟨i - 1, by omega⟩
    obtain ⟨j', rfl⟩ : ∃ j', j = j' + 1 := ⟨j - 1, by omega⟩
    have hlast := h L (Nat.lt_succ_self L)
    have e1 : i' + 1 - (L + 1) + L = i' := by omega
    have e2 : j' + 1 - (L + 1) + L = j' := by omega
    rw [e1, e2] at hlast
    rcases h1 : s1[i']? with _ | a
    · rw [h1] at hlast; simp at hlast
    rcases h2 : s2[j']? with _ | b
    · rw [h1, h2] at hlast; simp at hlast
    have hab : a = b := by
      rw [h1, h2] at hlast
      simpa using hlast.1
    have hrec : L ≤ dpVal s1 s2 i' j' := by
      apply ih i' j' (by omega) (by omega)
      intro t ht
      have := h t (by omega)
      have e3 : i' + 1 - (L + 1) + t = i' - L + t := by omega
      have e4 : j' + 1 - (L + 1) + t = j' - L + t := by omega
      rw [e3, e4] at this
      exact this
    unfold dpVal
    rw [h1, h2]
    simp only [hab, if_true, eq_self_iff_true]
    omega

/-- String `s` occurs contiguously, character-for-character, in `X` starting at
offset `p` (i.e. `X.substr(p, s.length) == s` in C++ terms). -/
def occursAt (s X : List Char) (p : Nat) : Prop :=
  p + s.length ≤ X.length ∧ (X.drop p).take s.length = s

/-- String `s` occurs contiguously somewhere in `X`. -/
def occursIn (s X : List Char) : Prop :=
  ∃ p, occursAt s X p

/-- String `s` occurs in both texts at a pair of positions that cannot both be
extended one character to the left: either occurrence starts at offset 0,
or the preceding characters differ.  This is exactly the set of strings the
DP of `findCommonSubstrings` inserts (before the length threshold). -/
def leftMaxCommonOcc (s1 s2 s : List Char) : Prop :=
  ∃ p q, occursAt s s1 p ∧ occursAt s s2 q ∧
    (p = 0 ∨ q = 0 ∨ s1[p - 1]? ≠ s2[q - 1]?)

theorem getElem?_of_occSeg {X s : List Char} {p : Nat}
    (h : (X.drop p).take s.length = s) {t : Nat} (ht : t < s.length) :
    X[p + t]? = s[t]? := by
  conv_rhs => rw [← h]
  rw [List.getElem?_take_of_lt ht, List.getElem?_drop]

theorem occSeg_of_getElem? {X s : List Char} {p : Nat}
    (h : ∀ t < s.length, X[p + t]? = s[t]?) :
    (X.drop p).take s.length = s := by
  apply List.ext_getElem?
  intro t
  by_cases ht : t < s.length
  · rw [List.getElem?_take_of_lt ht, List.getElem?_drop, h t ht]
  · rw [List.getElem?_eq_none, List.getElem?_eq_none (by omega)]
    simp only [List.length_take, List.length_drop]
    omega

theorem mem_indexPairs {m n : Nat} {p : Nat × Nat} :
    p ∈ indexPairs m n ↔ p.1 ≤ m ∧ p.2 ≤ n := by
  cases p with
  | mk a b =>
    simp only [indexPairs, List.mem_flatMap, List.mem_map, List.mem_range,
      Nat.lt_succ_iff, Prod.mk.injEq]
    constructor
    · rintro ⟨x, hx, y, hy, rfl, rfl⟩
      exact ⟨hx, hy⟩
    · rintro ⟨hx, hy⟩
      exact ⟨a, hx, b, hy, rfl, rfl⟩

/-- Exact characterisation of the strings returned by
`findCommonSubstrings`: for a threshold `k ≥ 1` they are precisely the
strings of length at least `k` that occur in both texts at a left-maximal
pair of positions. -/
theorem mem_findCommonSubstrings {s1 s2 : List Char} {k : Nat} (hk : 1 ≤ k)
    {s : List Char} :
    s ∈ findCommonSubstrings s1 s2 k ↔
      k ≤ s.length ∧ leftMaxCommonOcc s1 s2 s := by
  rw [findCommonSubstrings, List.mem_dedup, List.mem_filterMap]
  constructor
  · rintro ⟨⟨i, j⟩, hmem, hval⟩
    rw [mem_indexPairs] at hmem
    obtain ⟨hm1, hm2⟩ := hmem
    dsimp only at hm1 hm2 hval
    by_cases hcond : 0 < dpVal s1 s2 i j ∧ k ≤ dpVal s1 s2 i j
    · rw [if_pos hcond] at hval
      rw [Option.some_inj] at hval
      have hdi := dpVal_le_left s1 s2 i j
      have hdj := dpVal_le_right s1 s2 i j
      have hslen : s.length = dpVal s1 s2 i j := by
        rw [← hval]
        simp only [List.length_take, List.length_drop]
        omega
      have hval' : (s1.drop (i - dpVal s1 s2 i j)).take s.length = s := by
        rw [hslen]
        exact hval
      refine ⟨by omega, i - dpVal s1 s2 i j, j - dpVal s1 s2 i j,
        ⟨by omega, hval'⟩, ⟨by omega, ?_⟩, ?_⟩
      · apply occSeg_of_getElem?
        intro t ht
        have hmt := dpVal_match s1 s2 i j t (by omega)
        rw [← hmt.1]
        exact getElem?_of_occSeg hval' ht
      · exact dpVal_maximal s1 s2 i j hm1 hm2
    · rw [if_neg hcond] at hval
      exact absurd hval (by simp)
  · rintro ⟨hklen, p, q, ⟨hp1, hp2⟩, ⟨hq1, hq2⟩, hmax⟩
    have hL1 : 1 ≤ s.length := le_trans hk hklen
    have hdge : s.length ≤ dpVal s1 s2 (p + s.length) (q + s.length) := by
      apply dpVal_ge s1 s2 s.length _ _ (by omega) (by omega)
      intro t ht
      have e1 : p + s.length - s.length + t = p + t := by omega
      have e2 : q + s.length - s.length + t = q + t := by omega
      rw [e1, e2, getElem?_of_occSeg hp2 ht, getElem?_of_occSeg hq2 ht]
      exact ⟨rfl, by simp [List.getElem?_eq_getElem ht]⟩
    have hdle : dpVal s1 s2 (p + s.length) (q + s.length) ≤ s.length := by
      by_contra hgt
      push_neg at hgt
      have hdi := dpVal_le_left s1 s2 (p + s.length) (q + s.length)
      have hdj := dpVal_le_right s1 s2 (p + s.length) (q + s.length)
      have hmm := dpVal_match s1 s2 (p + s.length) (q + s.length)
        (dpVal s1 s2 (p + s.length) (q + s.length) - s.length - 1) (by omega)
      have e1 : p + s.length - dpVal s1 s2 (p + s.length) (q + s.length) +
          (dpVal s1 s2 (p + s.length) (q + s.length) - s.length - 1) = p - 1 := by
        omega
      have e2 : q + s.length - dpVal s1 s2 (p + s.length) (q + s.length) +
          (dpVal s1 s2 (p + s.length) (q + s.length) - s.length - 1) = q - 1 := by
        omega
      rw [e1, e2] at hmm
      rcases hmax with h0 | h0 | hne
      · omega
      · omega
      · exact hne hmm.1
    have hdeq : dpVal s1 s2 (p + s.length) (q + s.length) = s.length :=
      le_antisymm hdle hdge
    refine ⟨(p + s.length, q + s.length), ?_, ?_⟩
    · rw [mem_indexPairs]
      exact ⟨by omega, by omega⟩
    · simp only [hdeq]
      rw [if_pos ⟨by omega, hklen⟩]
      have e : p + s.length - s.length = p := by omega
      rw [e, hp2]

theorem findCommonSubstrings_nodup (s1 s2 : List Char) (k : Nat) :
    (findCommonSubstrings s1 s2 k).Nodup :=
  List.nodup_dedup _

/-- One cell-by-cell step of the `editDistance` DP (main.cpp lines 85-105):
`dpRow s1 s2 prev i j` is `dp[i+1][j]` given `prev = dp[i][·]`.
`dp[i+1][0] = i+1`; otherwise `dp[i+1][j+1] = dp[i][j]` when
`str1[i] == str2[j]`, else `1 + min(dp[i][j+1], dp[i+1][j], dp[i][j])`.
(The catch-all branch is never reached for in-range indices.) -/
def dpRow (s1 s2 : List Char) (prev : Nat → Nat) (i : Nat) : Nat → Nat
  | 0 => i + 1
  | j + 1 =>
    match s1[i]?, s2[j]? with
    | some a, some b =>
      if a = b then prev j
      else 1 + min (prev (j + 1)) (min (dpRow s1 s2 prev i j) (prev j))
    | _, _ => 1 + min (prev (j + 1)) (min (dpRow s1 s2 prev i j) (prev j))

/-- The full edit-distance DP table: `dpE s1 s2 i j = dp[i][j]`, with
`dp[0][j] = j` and row `i+1` computed from row `i` by `dpRow`. -/
def dpE (s1 s2 : List Char) : Nat → Nat → Nat
  | 0 => fun j => j
  | i + 1 => dpRow s1 s2 (dpE s1 s2 i) i

/-- Function `editDistance` (main.cpp lines 85-105): the bottom-right cell
`dp[m][n]` of the Levenshtein DP table. -/
def editDistance (s1 s2 : List Char) : Nat :=
  dpE s1 s2 s1.length s2.length

theorem dpE_zero (s1 s2 : List Char) (j : Nat) : dpE s1 s2 0 j = j := rfl

theorem dpE_succ_zero (s1 s2 : List Char) (i : Nat) : dpE s1 s2 (i + 1) 0 = i + 1 := rfl

theorem dpE_succ_succ (s1 s2 : List Char) (i j : Nat) :
    dpE s1 s2 (i + 1) (j + 1) =
      match s1[i]?, s2[j]? with
      | some a, some b =>
        if a = b then dpE s1 s2 i j
        else 1 + min (dpE s1 s2 i (j + 1)) (min (dpE s1 s2 (i + 1) j) (dpE s1 s2 i j))
      | _, _ =>
        1 + min (dpE s1 s2 i (j + 1)) (min (dpE s1 s2 (i + 1) j) (dpE s1 s2 i j)) :=
  rfl

/-- Reference recursive Levenshtein distance on lists, peeling characters
from the front; the DP table is related to it through list reversal. -/
def lev : List Char → List Char → Nat
  | [], ys => ys.length
  | _ :: xs, [] => xs.length + 1
  | x :: xs, y :: ys =>
    if x = y then lev xs ys
    else 1 + min (lev xs (y :: ys)) (min (lev (x :: xs) ys) (lev xs ys))

theorem lev_nil_right (xs : List Char) : lev xs [] = xs.length := by
  cases xs <;> simp [lev]

theorem lev_self : ∀ xs : List Char, lev xs xs = 0
  | [] => by simp [lev]
  | x :: xs => by simp [lev, lev_self xs]

theorem take_succ_reverse (X : List Char) (i : Nat) (h : i < X.length) :
    (X.take (i + 1)).reverse = X[i] :: (X.take i).reverse := by
  rw [List.take_succ, List.getElem?_eq_getElem h]
  simp

theorem dpE_eq_lev_aux (s1 s2 : List Char) :
    ∀ N i j, i + j ≤ N → i ≤ s1.length → j ≤ s2.length →
      dpE s1 s2 i j = lev ((s1.take i).reverse) ((s2.take j).reverse) := by
  intro N
  induction N with
  | zero =>
    intro i j hN _ _
    obtain rfl : i = 0 := by omega
    obtain rfl : j = 0 := by omega
    simp [dpE_zero, lev]
  | succ N ih =>
    intro i j hN hi hj
    rcases i with _ | i
    · rw [dpE_zero]
      simp [lev, List.length_take, min_eq_left hj]
    rcases j with _ | j
    · rw [dpE_succ_zero]
      simp only [List.take_zero, List.reverse_nil, lev_nil_right,
        List.length_reverse, List.length_take]
      omega
    have hi' : i < s1.length := by omega
    have hj' : j < s2.length := by omega
    rw [dpE_succ_succ, List.getElem?_eq_getElem hi', List.getElem?_eq_getElem hj']
    show (if s1[i] = s2[j] then dpE s1 s2 i j
      else 1 + min (dpE s1 s2 i (j + 1))
        (min (dpE s1 s2 (i + 1) j) (dpE s1 s2 i j))) = _
    rw [take_succ_reverse s1 i hi', take_succ_reverse s2 j hj']
    simp only [lev]
    by_cases hc : s1[i] = s2[j]
    · rw [if_pos hc, if_pos hc, ih i j (by omega) (by omega) (by omega)]
    · rw [if_neg hc, if_neg hc,
        ih i (j + 1) (by omega) (by omega) (by omega),
        ih (i + 1) j (by omega) (by omega) (by omega),
        ih i j (by omega) (by omega) (by omega),
        take_succ_reverse s1 i hi', take_succ_reverse s2 j hj']

theorem editDistance_eq_lev (s1 s2 : List Char) :
    editDistance s1 s2 = lev s1.reverse s2.reverse := by
  rw [editDistance,
    dpE_eq_lev_aux s1 s2 (s1.length + s2.length) _ _ le_rfl le_rfl le_rfl,
    List.take_length, List.take_length]

theorem lev_symm_aux : ∀ N xs ys, xs.length + ys.length ≤ N → lev xs ys = lev ys xs := by
  intro N
  induction N with
  | zero =>
    intro xs ys h
    obtain rfl : xs = [] := List.length_eq_zero.mp (by omega)
    obtain rfl : ys = [] := List.length_eq_zero.mp (by omega)
    rfl
  | succ N ih =>
    intro xs ys hN
    rcases xs with _ | ⟨x, xs⟩
    · rw [lev_nil_right]
      simp [lev]
    rcases ys with _ | ⟨y, ys⟩
    · rw [lev_nil_right]
      simp [lev]
    simp only [List.length_cons] at hN
    simp only [lev]
    rcases eq_or_ne x y with rfl | hxy
    · rw [if_pos rfl, if_pos rfl, ih xs ys (by omega)]
    · rw [if_neg hxy, if_neg (Ne.symm hxy),
        ih xs (y :: ys) (by simp; omega), ih (x :: xs) ys (by simp; omega),
        ih xs ys (by omega)]
      omega

theorem lev_symm (xs ys : List Char) : lev xs ys = lev ys xs :=
  lev_symm_aux (xs.length + ys.length) xs ys le_rfl

theorem lev_length_lb_aux : ∀ N xs ys, xs.length + ys.length ≤ N →
    ys.length ≤ lev xs ys + xs.length ∧ xs.length ≤ lev xs ys + ys.length := by
  intro N
  induction N with
  | zero =>
    intro xs ys h
    obtain rfl : xs = [] := List.length_eq_zero.mp (by omega)
    obtain rfl : ys = [] := List.length_eq_zero.mp (by omega)
    simp
  | succ N ih =>
    intro xs ys hN
    rcases xs with _ | ⟨x, xs⟩
    · simp [lev]
    rcases ys with _ | ⟨y, ys⟩
    · simp [lev_nil_right]
    simp only [List.length_cons] at hN
    simp only [lev, List.length_cons]
    rcases eq_or_ne x y with rfl | hxy
    · rw [if_pos rfl]
      have := ih xs ys (by omega)
      omega
    · rw [if_neg hxy]
      have h1 := ih xs (y :: ys) (by simp; omega)
      have h2 := ih (x :: xs) ys (by simp; omega)
      have h3 := ih xs ys (by omega)
      simp only [List.length_cons] at h1 h2
      omega

theorem lev_length_lb (xs ys : List Char) :
    ys.length ≤ lev xs ys + xs.length ∧ xs.length ≤ lev xs ys + ys.length :=
  lev_length_lb_aux (xs.length + ys.length) xs ys le_rfl

theorem lev_ins_le_aux : ∀ N (u v : List Char) (x : Char) (c : List Char),
    u.length + v.length + c.length ≤ N →
    lev (u ++ v) c ≤ 1 + lev (u ++ x :: v) c := by
  intro N
  induction N with
  | zero =>
    intro u v x c h
    obtain rfl : u = [] := List.length_eq_zero.mp (by omega)
    obtain rfl : v = [] := List.length_eq_zero.mp (by omega)
    obtain rfl : c = [] := List.length_eq_zero.mp (by omega)
    simp [lev, lev_nil_right]
  | succ N ih =>
    intro u v x c hN
    rcases u with _ | ⟨w, u⟩
    · simp only [List.nil_append] at hN ⊢
      rcases v with _ | ⟨a, v⟩
      · have hlb := (lev_length_lb [x] c).1
        simp only [List.length_cons, List.length_nil] at hlb
        simp only [lev]
        omega
      · rcases c with _ | ⟨b, c⟩
        · rw [lev_nil_right, lev_nil_right]
          simp only [List.length_cons]
          omega
        · simp only [List.length_cons, List.length_nil] at hN
          rcases eq_or_ne a b with rfl | hab
          · rcases eq_or_ne x a with rfl | hxa
            · simp only [lev, eq_self_iff_true, if_true]
              have h1 := ih [] v x c (by simp; omega)
              simpa using h1
            · simp only [lev, eq_self_iff_true, if_true, if_neg hxa]
              have h1 := ih [] v a c (by simp; omega)
              have h2 := ih [] (a :: v) x c (by simp; omega)
              simp only [List.nil_append] at h1 h2
              omega
          · rcases eq_or_ne x b with rfl | hxb
            · simp only [lev, eq_self_iff_true, if_true, if_neg hab]
              omega
            · simp only [lev, if_neg hab, if_neg hxb]
              have h2 := ih [] (a :: v) x c (by simp; omega)
              simp only [List.nil_append] at h2
              omega
    · simp only [List.cons_append] at hN ⊢
      simp only [List.length_cons] at hN
      rcases c with _ | ⟨b, c⟩
      · rw [lev_nil_right, lev_nil_right]
        simp only [List.length_cons, List.length_append]
        omega
      · rcases eq_or_ne w b with rfl | hwb
        · simp only [lev, if_pos rfl]
          exact ih u v x c (by simp at hN ⊢; omega)
        · simp only [lev, if_neg hwb]
          have h1 := ih u v x (b :: c) (by simp at hN ⊢; omega)
          have h2 := ih (w :: u) v x c (by simp at hN ⊢; omega)
          have h3 := ih u v x c (by simp at hN ⊢; omega)
          simp only [List.cons_append] at h1 h2 h3
          omega

theorem lev_ins_le (u v : List Char) (x : Char) (c : List Char) :
    lev (u ++ v) c ≤ 1 + lev (u ++ x :: v) c :=
  lev_ins_le_aux (u.length + v.length + c.length) u v x c le_rfl

theorem lev_del_le_aux : ∀ N (u v : List Char) (x : Char) (c : List Char),
    u.length + v.length + c.length ≤ N →
    lev (u ++ x :: v) c ≤ 1 + lev (u ++ v) c := by
  intro N
  induction N with
  | zero =>
    intro u v x c h
    obtain rfl : u = [] := List.length_eq_zero.mp (by omega)
    obtain rfl : v = [] := List.length_eq_zero.mp (by omega)
    obtain rfl : c = [] := List.length_eq_zero.mp (by omega)
    simp [lev, lev_nil_right]
  | succ N ih =>
    intro u v x c hN
    rcases u with _ | ⟨w, u⟩
    · simp only [List.nil_append] at hN ⊢
      rcases c with _ | ⟨b, c⟩
      · rw [lev_nil_right, lev_nil_right]
        simp only [List.length_cons]
        omega
      · rcases eq_or_ne x b with rfl | hxb
        · simp only [lev, eq_self_iff_true, if_true]
          rw [lev_symm v c, lev_symm v (x :: c)]
          simpa using lev_ins_le [] c x v
        · simp only [lev, if_neg hxb]
          omega
    · simp only [List.cons_append] at hN ⊢
      simp only [List.length_cons] at hN
      rcases c with _ | ⟨b, c⟩
      · rw [lev_nil_right, lev_nil_right]
        simp only [List.length_cons, List.length_append]
        omega
      · rcases eq_or_ne w b with rfl | hwb
        · simp only [lev, eq_self_iff_true, if_true]
          exact ih u v x c (by simp at hN ⊢; omega)
        · simp only [lev, if_neg hwb]
          have h1 := ih u v x (b :: c) (by simp at hN ⊢; omega)
          have h2 := ih (w :: u) v x c (by simp at hN ⊢; omega)
          have h3 := ih u v x c (by simp at hN ⊢; omega)
          simp only [List.cons_append] at h1 h2 h3
          omega

theorem lev_del_le (u v : List Char) (x : Char) (c : List Char) :
    lev (u ++ x :: v) c ≤ 1 + lev (u ++ v) c :=
  lev_del_le_aux (u.length + v.length + c.length) u v x c le_rfl

theorem lev_subst_le_aux : ∀ N (u v : List Char) (x y : Char) (c : List Char),
    u.length + v.length + c.length ≤ N →
    lev (u ++ x :: v) c ≤ 1 + lev (u ++ y :: v) c := by
  intro N
  induction N with
  | zero =>
    intro u v x y c h
    obtain rfl : u = [] := List.length_eq_zero.mp (by omega)
    obtain rfl : v = [] := List.length_eq_zero.mp (by omega)
    obtain rfl : c = [] := List.length_eq_zero.mp (by omega)
    simp [lev, lev_nil_right]
  | succ N ih =>
    intro u v x y c hN
    rcases u with _ | ⟨w, u⟩
    · simp only [List.nil_append] at hN ⊢
      rcases c with _ | ⟨b, c⟩
      · rw [lev_nil_right, lev_nil_right]
        simp only [List.length_cons]
        omega
      · rcases eq_or_ne y b with rfl | hyb
        · rcases eq_or_ne x y with rfl | hxy
          · simp only [lev, eq_self_iff_true, if_true]
            omega
          · simp only [lev, eq_self_iff_true, if_true, if_neg hxy]
            omega
        · rcases eq_or_ne x b with rfl | hxb
          · simp only [lev, eq_self_iff_true, if_true, if_neg hyb]
            have hS : lev v c ≤ 1 + lev v (x :: c) := by
              rw [lev_symm v c, lev_symm v (x :: c)]
              simpa using lev_ins_le [] c x v
            have hI : lev v c ≤ 1 + lev (y :: v) c := by
              simpa using lev_ins_le [] v y c
            omega
          · simp only [lev, if_neg hxb, if_neg hyb]
            have h2 := ih [] v x y c (by simp at hN ⊢; omega)
            simp only [List.nil_append] at h2
            omega
    · simp only [List.cons_append] at hN ⊢
      simp only [List.length_cons] at hN
      rcases c with _ | ⟨b, c⟩
      · rw [lev_nil_right, lev_nil_right]
        simp only [List.length_cons, List.length_append]
        omega
      · rcases eq_or_ne w b with rfl | hwb
        · simp only [lev, eq_self_iff_true, if_true]
          exact ih u v x y c (by simp at hN ⊢; omega)
        · simp only [lev, if_neg hwb]
          have h1 := ih u v x y (b :: c) (by simp at hN ⊢; omega)
          have h2 := ih (w :: u) v x y c (by simp at hN ⊢; omega)
          have h3 := ih u v x y c (by simp at hN ⊢; omega)
          simp only [List.cons_append] at h1 h2 h3
          omega

theorem lev_subst_le (u v : List Char) (x y : Char) (c : List Char) :
    lev (u ++ x :: v) c ≤ 1 + lev (u ++ y :: v) c :=
  lev_subst_le_aux (u.length + v.length + c.length) u v x y c le_rfl

/-- A single-character edit operation anywhere in a string: insertion,
deletion, or substitution of one character. -/
inductive EditStep : List Char → List Char → Prop
  | ins (u v : List Char) (x : Char) : EditStep (u ++ v) (u ++ x :: v)
  | del (u v : List Char) (x : Char) : EditStep (u ++ x :: v) (u ++ v)
  | subst (u v : List Char) (x y : Char) : EditStep (u ++ x :: v) (u ++ y :: v)

/-- Relation `Edits n a b`: `a` can be transformed into `b` by a chain of exactly `n`
single-character edit operations. -/
inductive Edits : Nat → List Char → List Char → Prop
  | refl (l : List Char) : Edits 0 l l
  | step {n : Nat} {a b c : List Char} :
      EditStep a b → Edits n b c → Edits (n + 1) a c

theorem editStepCons {a b : List Char} (h : EditStep a b) (z : Char) :
    EditStep (z :: a) (z :: b) := by
  cases h with
  | ins u v x => exact EditStep.ins (z :: u) v x
  | del u v x => exact EditStep.del (z :: u) v x
  | subst u v x y => exact EditStep.subst (z :: u) v x y

theorem editsCons {n : Nat} {a b : List Char} (h : Edits n a b) (z : Char) :
    Edits n (z :: a) (z :: b) := by
  induction h with
  | refl l => exact Edits.refl _
  | step hs _ ih => exact Edits.step (editStepCons hs z) ih

theorem Edits.trans {m n : Nat} {a b c : List Char}
    (h1 : Edits m a b) (h2 : Edits n b c) : Edits (m + n) a c := by
  induction h1 with
  | refl l => simpa using h2
  | step hs _ ih =>
    have h3 := Edits.step hs (ih h2)
    rwa [Nat.add_right_comm] at h3

theorem edits_nil_left : ∀ ys : List Char, Edits ys.length [] ys
  | [] => Edits.refl []
  | y :: ys => by
    have h0 : EditStep [] [y] := by
      simpa using EditStep.ins ([] : List Char) [] y
    exact Edits.step h0 (editsCons (edits_nil_left ys) y)

theorem edits_nil_right : ∀ xs : List Char, Edits xs.length xs []
  | [] => Edits.refl []
  | x :: xs => by
    have h0 : EditStep (x :: xs) xs := by
      simpa using EditStep.del ([] : List Char) xs x
    exact Edits.step h0 (edits_nil_right xs)

theorem edits_lev_aux : ∀ N xs ys, xs.length + ys.length ≤ N →
    Edits (lev xs ys) xs ys := by
  intro N
  induction N with
  | zero =>
    intro xs ys h
    obtain rfl : xs = [] := List.length_eq_zero.mp (by omega)
    obtain rfl : ys = [] := List.length_eq_zero.mp (by omega)
    simpa [lev] using Edits.refl ([] : List Char)
  | succ N ih =>
    intro xs ys hN
    rcases xs with _ | ⟨x, xs⟩
    · simpa [lev] using edits_nil_left ys
    rcases ys with _ | ⟨y, ys⟩
    · simpa [lev_nil_right] using edits_nil_right (x :: xs)
    simp only [List.length_cons] at hN
    rcases eq_or_ne x y with rfl | hxy
    · simp only [lev, eq_self_iff_true, if_true]
      exact editsCons (ih xs ys (by omega)) x
    · simp only [lev, if_neg hxy]
      have hdel : EditStep (x :: xs) xs := by
        simpa using EditStep.del ([] : List Char) xs x
      have hins : EditStep (x :: xs) (y :: x :: xs) := by
        simpa using EditStep.ins ([] : List Char) (x :: xs) y
      have hsub : EditStep (x :: xs) (y :: xs) := by
        simpa using EditStep.subst ([] : List Char) xs x y
      have hcase : min (lev xs (y :: ys)) (min (lev (x :: xs) ys) (lev xs ys)) =
            lev xs (y :: ys) ∨
          min (lev xs (y :: ys)) (min (lev (x :: xs) ys) (lev xs ys)) =
            lev (x :: xs) ys ∨
          min (lev xs (y :: ys)) (min (lev (x :: xs) ys) (lev xs ys)) =
            lev xs ys := by
        omega
      rcases hcase with hc | hc | hc <;> rw [hc, Nat.add_comm 1]
      · exact Edits.step hdel (ih xs (y :: ys) (by simp; omega))
      · exact Edits.step hins (editsCons (ih (x :: xs) ys (by simp; omega)) y)
      · exact Edits.step hsub (editsCons (ih xs ys (by omega)) y)

theorem edits_lev (xs ys : List Char) : Edits (lev xs ys) xs ys :=
  edits_lev_aux (xs.length + ys.length) xs ys le_rfl

theorem lev_step_le {a b : List Char} (h : EditStep a b) (c : List Char) :
    lev a c ≤ 1 + lev b c := by
  cases h with
  | ins u v x => exact lev_ins_le u v x c
  | del u v x => exact lev_del_le u v x c
  | subst u v x y => exact lev_subst_le u v x y c

theorem lev_le_of_edits : ∀ {n : Nat} {a b : List Char}, Edits n a b → lev a b ≤ n := by
  intro n a b h
  induction h with
  | refl l => simp [lev_self]
  | step hs hrest ih =>
    rename_i c _ _
    exact le_trans (lev_step_le hs _) (by omega)

theorem editStepRev {a b : List Char} (h : EditStep a b) :
    EditStep a.reverse b.reverse := by
  cases h with
  | ins u v x =>
    have := EditStep.ins v.reverse u.reverse x
    simpa [List.reverse_append] using this
  | del u v x =>
    have := EditStep.del v.reverse u.reverse x
    simpa [List.reverse_append] using this
  | subst u v x y =>
    have := EditStep.subst v.reverse u.reverse x y
    simpa [List.reverse_append] using this

theorem editsRev {n : Nat} {a b : List Char} (h : Edits n a b) :
    Edits n a.reverse b.reverse := by
  induction h with
  | refl l => exact Edits.refl _
  | step hs _ ih => exact Edits.step (editStepRev hs) ih

theorem editDistance_achieves (s1 s2 : List Char) :
    Edits (editDistance s1 s2) s1 s2 := by
  rw [editDistance_eq_lev]
  simpa using editsRev (edits_lev s1.reverse s2.reverse)

theorem editDistance_minimal {s1 s2 : List Char} {n : Nat} (h : Edits n s1 s2) :
    editDistance s1 s2 ≤ n := by
  rw [editDistance_eq_lev]
  exact lev_le_of_edits (editsRev h)

/-- The substrings `str.substr(i, j - i)` enumerated by the two nested loops
of `broderContainment` (main.cpp lines 108-135): `i` ranges over `[0, n)` and
`j` over `(i, n]`, so every nonempty contiguous substring appears. -/
def allSubstrings (X : List Char) : List (List Char) :=
  (List.range X.length).flatMap fun i =>
    (List.range (X.length - i)).map fun t => (X.drop i).take (t + 1)

/-- Function `broderContainment` (main.cpp lines 108-135): the number of distinct
substrings of `str1` that are also substrings of `str2`, divided by the
number of distinct substrings of `str1`.  For `str1 = ""` the set is empty
and the source computes `0.0 / 0.0`, i.e. IEEE NaN, modelled as `none`. -/
def broderContainment (s1 s2 : List Char) : Option ℚ :=
  let substrings1 := (allSubstrings s1).toFinset
  let substrings2 := (allSubstrings s2).toFinset
  let countContained := (substrings1.filter fun s => s ∈ substrings2).card
  if substrings1.card = 0 then none
  else some (mkRat countContained substrings1.card)

theorem broderContainment_self (A : List Char) (h : A ≠ []) :
    broderContainment A A = some 1 := by
  have hne : (A.drop 0).take 1 ∈ allSubstrings A := by
    simp only [allSubstrings, List.mem_flatMap, List.mem_map, List.mem_range]
    refine ⟨0, ?_, 0, ?_, rfl⟩
    · cases A with
      | nil => exact absurd rfl h
      | cons a l => simp
    · cases A with
      | nil => exact absurd rfl h
      | cons a l => simp
  have hcard : (allSubstrings A).toFinset.card ≠ 0 := by
    intro h0
    rw [Finset.card_eq_zero] at h0
    have : (A.drop 0).take 1 ∈ (allSubstrings A).toFinset := by
      rw [List.mem_toFinset]
      exact hne
    rw [h0] at this
    exact absurd this (Finset.not_mem_empty _)
  simp only [broderContainment]
  rw [if_neg hcard]
  rw [Finset.filter_true_of_mem fun x hx => hx]
  rw [Rat.mkRat_eq_div]
  push_cast
  rw [div_self (by exact_mod_cast hcard)]

/-- The net effect of `generateSimilarityMatrix`'s double loop
(main.cpp lines 138-151) on cell `(i, j)`: cells with `i < j` are written
directly, cells with `j < i` receive the mirrored value, the diagonal keeps
its initial `0.0`. -/
def matrixEntry (documents : List (List Char)) (minLength : Nat) (i j : Nat) :
    Option ℚ :=
  if i < j then
    similarityMetric (documents.getD i []) (documents.getD j []) minLength
  else if j < i then
    similarityMetric (documents.getD j []) (documents.getD i []) minLength
  else some 0

/-- Function `generateSimilarityMatrix` (main.cpp lines 138-151) as the n×n list of
its final cell values. -/
def generateSimilarityMatrix (documents : List (List Char)) (minLength : Nat) :
    List (List (Option ℚ)) :=
  (List.range documents.length).map fun i =>
    (List.range documents.length).map fun j => matrixEntry documents minLength i j

/-- Reading the cell `similarityMatrix[i][j]` of the matrix (out-of-range
reads, which the source never performs, default to the initial value 0.0). -/
def matrixGet (M : List (List (Option ℚ))) (i j : Nat) : Option ℚ :=
  (M.getD i []).getD j (some 0)

theorem matrixGet_generate (documents : List (List Char)) (minLength : Nat)
    {i j : Nat} (hi : i < documents.length) (hj : j < documents.length) :
    matrixGet (generateSimilarityMatrix documents minLength) i j =
      matrixEntry documents minLength i j := by
  have hrow : (generateSimilarityMatrix documents minLength).getD i [] =
      (List.range documents.length).map fun j =>
        matrixEntry documents minLength i j := by
    rw [generateSimilarityMatrix, List.getD_eq_getElem?_getD, List.getElem?_map,
      List.getElem?_range hi]
    simp
  rw [matrixGet, hrow, List.getD_eq_getElem?_getD, List.getElem?_map,
    List.getElem?_range hj]
  simp

/-- The `>` comparison on modelled `double` values: any comparison involving
NaN (`none`) is false, exactly as IEEE `operator>` behaves. -/
def gtOpt : Option ℚ → Option ℚ → Bool
  | some x, some y => decide (y < x)
  | _, _ => false

/-- Function `comparePairs` (main.cpp lines 179-182):
`similarityMatrix[a.first][a.second] > similarityMatrix[b.first][b.second]`. -/
def comparePairs (a b : Nat × Nat) (similarityMatrix : List (List (Option ℚ))) :
    Bool :=
  gtOpt (matrixGet similarityMatrix a.1 a.2) (matrixGet similarityMatrix b.1 b.2)

/-- The pair list built in `main` (main.cpp lines 199-204): all `(i, j)` with
`i < j < n`, in lexicographic order. -/
def allPairs (n : Nat) : List (Nat × Nat) :=
  (List.range n).flatMap fun i =>
    ((List.range n).map fun j => (i, j)).filter fun p => p.1 < p.2

/-- The ranked pair list of `main` (main.cpp lines 206-209):
`std::sort(mostSimilarPairs, comp)` where `comp a b = comparePairs a b matrix`.
`std::sort`'s contract: the output is a permutation of the input that is
sorted with respect to `comp` (no later element compares before an earlier
one) — provided `comp` is a strict weak ordering; std::sort is not stable
and its tie order is unspecified.  We model it by insertion sort with
`le a b := ¬ comp b a`, a comparison sort meeting exactly that contract. -/
def rankedPairs (documents : List (List Char)) (minLength : Nat) :
    List (Nat × Nat) :=
  (allPairs documents.length).insertionSort fun a b =>
    comparePairs b a (generateSimilarityMatrix documents minLength) = false

/-- The ordering guarantee the comparator yields between two cell values:
between two defined (non-NaN) values it is the numeric `≤`; a comparison
involving NaN guarantees nothing (IEEE comparisons with NaN are all false). -/
def oLe : Option ℚ → Option ℚ → Prop
  | some x, some y => x ≤ y
  | _, _ => True

instance oLe.instDecidable : (x y : Option ℚ) → Decidable (oLe x y)
  | some x, some y => inferInstanceAs (Decidable (x ≤ y))
  | some _, none => Decidable.isTrue trivial
  | none, _ => Decidable.isTrue trivial

theorem mem_allPairs {n : Nat} {p : Nat × Nat} :
    p ∈ allPairs n ↔ p.1 < p.2 ∧ p.2 < n := by
  cases p with
  | mk a b =>
    simp only [allPairs, List.mem_flatMap, List.mem_filter, List.mem_map,
      List.mem_range, Prod.mk.injEq, decide_eq_true_eq]
    constructor
    · rintro ⟨i, hi, ⟨j, hj, rfl, rfl⟩, hlt⟩
      exact ⟨hlt, hj⟩
    · rintro ⟨hab, hb⟩
      exact ⟨a, lt_trans hab hb, ⟨b, hb, rfl, rfl⟩, hab⟩

theorem allPairs_nodup (n : Nat) : (allPairs n).Nodup := by
  rw [allPairs, List.nodup_flatMap]
  constructor
  · intro i _
    apply List.Nodup.filter
    exact (List.nodup_range n).map (fun a b h => (Prod.mk.injEq _ _ _ _).mp h |>.2)
  · have : ∀ i, ∀ x : Nat × Nat,
        x ∈ ((List.range n).map fun j => (i, j)).filter (fun p => p.1 < p.2) →
          x.1 = i := by
      intro i x hx
      simp only [List.mem_filter, List.mem_map] at hx
      obtain ⟨⟨j, _, rfl⟩, _⟩ := hx
      rfl
    apply List.Pairwise.imp _ (List.nodup_range n)
    intro a b hab
    rw [Function.onFun, List.disjoint_left]
    intro x hxa hxb
    exact hab ((this a x hxa).symm.trans (this b x hxb))

theorem findCommonSubstrings_zero (s1 s2 : List Char) :
    findCommonSubstrings s1 s2 0 = findCommonSubstrings s1 s2 1 := by
  rw [findCommonSubstrings, findCommonSubstrings]
  congr 1
  apply List.filterMap_congr
  intro p _
  rcases Nat.eq_zero_or_pos (dpVal s1 s2 p.1 p.2) with h | h
  · rw [if_neg (by omega), if_neg (by omega)]
  · rw [if_pos ⟨h, by omega⟩, if_pos ⟨h, h⟩]

theorem leftMaxCommonOcc_symm {s1 s2 s : List Char} (h : leftMaxCommonOcc s1 s2 s) :
    leftMaxCommonOcc s2 s1 s := by
  obtain ⟨p, q, hp, hq, hm⟩ := h
  refine ⟨q, p, hq, hp, ?_⟩
  rcases hm with h0 | h0 | hne
  · exact Or.inr (Or.inl h0)
  · exact Or.inl h0
  · exact Or.inr (Or.inr (Ne.symm hne))

theorem findCommonSubstrings_perm_symm (s1 s2 : List Char) {k : Nat} (hk : 1 ≤ k) :
    List.Perm (findCommonSubstrings s1 s2 k) (findCommonSubstrings s2 s1 k) := by
  rw [List.perm_ext_iff_of_nodup (findCommonSubstrings_nodup s1 s2 k)
    (findCommonSubstrings_nodup s2 s1 k)]
  intro s
  rw [mem_findCommonSubstrings hk, mem_findCommonSubstrings hk]
  exact ⟨fun ⟨h1, h2⟩ => ⟨h1, leftMaxCommonOcc_symm h2⟩,
    fun ⟨h1, h2⟩ => ⟨h1, leftMaxCommonOcc_symm h2⟩⟩

theorem similarityMetric_symm (s1 s2 : List Char) (k : Nat) :
    similarityMetric s1 s2 k = similarityMetric s2 s1 k := by
  have hperm :
      List.Perm (findCommonSubstrings s1 s2 k) (findCommonSubstrings s2 s1 k) := by
    rcases Nat.eq_zero_or_pos k with rfl | hk
    · rw [findCommonSubstrings_zero, findCommonSubstrings_zero]
      exact findCommonSubstrings_perm_symm s1 s2 le_rfl
    · exact findCommonSubstrings_perm_symm s1 s2 hk
  simp only [similarityMetric]
  rw [(hperm.map List.length).sum_eq, Nat.max_comm]

theorem similarityMetric_nonneg (s1 s2 : List Char) (k : Nat)
    (h : s1 ≠ [] ∨ s2 ≠ []) :
    ∃ q : ℚ, similarityMetric s1 s2 k = some q ∧ 0 ≤ q := by
  have hmax : max s1.length s2.length ≠ 0 := by
    rcases h with h | h
    · have : s1.length ≠ 0 := fun h0 => h (List.length_eq_zero.mp h0)
      omega
    · have : s2.length ≠ 0 := fun h0 => h (List.length_eq_zero.mp h0)
      omega
  refine ⟨_, by rw [similarityMetric]; rw [if_neg hmax], ?_⟩
  rw [Rat.mkRat_eq_div]
  positivity

theorem editDistance_self (A : List Char) : editDistance A A = 0 := by
  rw [editDistance_eq_lev, lev_self]

theorem similarityMetric_self_ge_one (A : List Char) (k : Nat)
    (hk : 1 ≤ k) (hkA : k ≤ A.length) :
    ∃ q : ℚ, similarityMetric A A k = some q ∧ 1 ≤ q := by
  have hA : A.length ≠ 0 := by omega
  have hmem : A ∈ findCommonSubstrings A A k := by
    rw [mem_findCommonSubstrings hk]
    exact ⟨hkA, 0, 0, ⟨by simp, by simp⟩, ⟨by simp, by simp⟩, Or.inl rfl⟩
  have htot : A.length ≤ ((findCommonSubstrings A A k).map List.length).sum := by
    apply List.le_sum_of_mem
    exact List.mem_map_of_mem List.length hmem
  have hmax : ¬ (max A.length A.length = 0) := by omega
  refine ⟨_, by rw [similarityMetric]; rw [if_neg hmax], ?_⟩
  have hmax0 : (0 : ℚ) < ((max A.length A.length : Nat) : ℚ) := by
    exact_mod_cast (by omega : 0 < max A.length A.length)
  rw [Rat.mkRat_eq_div, le_div_iff₀ hmax0, one_mul]
  exact_mod_cast (by omega : max A.length A.length ≤
    ((findCommonSubstrings A A k).map List.length).sum)

theorem similarityMetric_isSome (s1 s2 : List Char) (k : Nat)
    (h : s1 ≠ [] ∨ s2 ≠ []) : ∃ q, similarityMetric s1 s2 k = some q := by
  obtain ⟨q, hq, _⟩ := similarityMetric_nonneg s1 s2 k h
  exact ⟨q, hq⟩

theorem generateSimilarityMatrix_length (documents : List (List Char))
    (minLength : Nat) :
    (generateSimilarityMatrix documents minLength).length = documents.length := by
  simp [generateSimilarityMatrix]

theorem generateSimilarityMatrix_row (documents : List (List Char))
    (minLength : Nat) {i : Nat} (hi : i < documents.length) :
    (generateSimilarityMatrix documents minLength).getD i [] =
      (List.range documents.length).map fun j =>
        matrixEntry documents minLength i j := by
  rw [generateSimilarityMatrix, List.getD_eq_getElem?_getD, List.getElem?_map,
    List.getElem?_range hi]
  simp

theorem matrixGet_isSome (documents : List (List Char)) (minLength : Nat)
    (H : ∀ i j, i < j → j < documents.length →
      documents.getD i [] ≠ [] ∨ documents.getD j [] ≠ [])
    (a b : Nat) :
    ∃ q, matrixGet (generateSimilarityMatrix documents minLength) a b = some q := by
  by_cases ha : a < documents.length
  · by_cases hb : b < documents.length
    · rw [matrixGet_generate documents minLength ha hb, matrixEntry]
      rcases lt_trichotomy a b with h | h | h
      · rw [if_pos h]
        exact similarityMetric_isSome _ _ _ (H a b h hb)
      · rw [if_neg (by omega), if_neg (by omega)]
        exact ⟨0, rfl⟩
      · rw [if_neg (by omega), if_pos h]
        exact similarityMetric_isSome _ _ _ (H b a h ha)
    · refine ⟨0, ?_⟩
      rw [matrixGet, generateSimilarityMatrix_row documents minLength ha]
      apply List.getD_eq_default
      simp
      omega
  · refine ⟨0, ?_⟩
    have hrow : (generateSimilarityMatrix documents minLength).getD a [] = [] := by
      apply List.getD_eq_default
      rw [generateSimilarityMatrix_length]
      omega
    rw [matrixGet, hrow]
    simp

theorem comparePairs_false_iff (documents : List (List Char)) (minLength : Nat)
    (a b : Nat × Nat) (x y : ℚ)
    (hx : matrixGet (generateSimilarityMatrix documents minLength) a.1 a.2 = some x)
    (hy : matrixGet (generateSimilarityMatrix documents minLength) b.1 b.2 = some y) :
    (comparePairs b a (generateSimilarityMatrix documents minLength) = false ↔
      y ≤ x) := by
  rw [comparePairs, hx, hy]
  simp [gtOpt, decide_eq_false_iff_not, not_lt]

theorem rankedPairs_sorted (documents : List (List Char)) (minLength : Nat)
    (H : ∀ i j, i < j → j < documents.length →
      documents.getD i [] ≠ [] ∨ documents.getD j [] ≠ []) :
    List.Pairwise (fun p q : Nat × Nat =>
      oLe (matrixGet (generateSimilarityMatrix documents minLength) q.1 q.2)
          (matrixGet (generateSimilarityMatrix documents minLength) p.1 p.2))
      (rankedPairs documents minLength) := by
  have hval : ∀ p : Nat × Nat,
      ∃ q, matrixGet (generateSimilarityMatrix documents minLength) p.1 p.2 =
        some q :=
    fun p => matrixGet_isSome documents minLength H p.1 p.2
  haveI hTot : IsTotal (Nat × Nat) (fun a b =>
      comparePairs b a (generateSimilarityMatrix documents minLength) = false) := by
    constructor
    intro a b
    obtain ⟨x, hx⟩ := hval a
    obtain ⟨y, hy⟩ := hval b
    rw [comparePairs_false_iff documents minLength a b x y hx hy,
      comparePairs_false_iff documents minLength b a y x hy hx]
    exact le_total y x
  haveI hTrans : IsTrans (Nat × Nat) (fun a b =>
      comparePairs b a (generateSimilarityMatrix documents minLength) = false) := by
    constructor
    intro a b c hab hbc
    obtain ⟨x, hx⟩ := hval a
    obtain ⟨y, hy⟩ := hval b
    obtain ⟨z, hz⟩ := hval c
    rw [comparePairs_false_iff documents minLength a b x y hx hy] at hab
    rw [comparePairs_false_iff documents minLength b c y z hy hz] at hbc
    rw [comparePairs_false_iff documents minLength a c x z hx hz]
    exact le_trans hbc hab
  have hs := List.sorted_insertionSort (fun a b =>
      comparePairs b a (generateSimilarityMatrix documents minLength) = false)
    (allPairs documents.length)
  rw [rankedPairs]
  refine List.Pairwise.imp ?_ hs
  intro p q hpq
  obtain ⟨x, hx⟩ := hval p
  obtain ⟨y, hy⟩ := hval q
  rw [comparePairs_false_iff documents minLength p q x y hx hy] at hpq
  rw [hx, hy]
  exact hpq

theorem matrixEntry_symm (documents : List (List Char)) (minLength : Nat)
    (i j : Nat) :
    matrixEntry documents minLength i j = matrixEntry documents minLength j i := by
  rw [matrixEntry, matrixEntry]
  rcases lt_trichotomy i j with h | h | h
  · rw [if_pos h, if_neg (by omega), if_pos h]
  · rw [if_neg (by omega), if_neg (by omega), if_neg (by omega), if_neg (by omega)]
  · rw [if_neg (by omega), if_pos h, if_pos h]

/-! ## The claims -/

/-- C1, counterexample.  The claim says `findCommonSubstrings(A, B, k)`
returns *every* distinct common substring of length ≥ k.  It does not:
for `A = B = "ab"` and `k = 1`, the string `"b"` is a common substring of
length ≥ 1 (it occurs at offset 1 in both), yet it is not returned — the DP
only ever inserts the full common suffix at each match position, so `"b"` is
swallowed by `"ab"`. -/
theorem c1_counterexample :
    occursIn ['b'] ['a', 'b'] ∧ 1 ≤ List.length ['b'] ∧
      ['b'] ∉ findCommonSubstrings ['a', 'b'] ['a', 'b'] 1 :=
  ⟨⟨1, by decide, by decide⟩, by decide, by decide⟩

/-- C1, amended.  For every pair of texts and every minimum length
`k ≥ 1`, `findCommonSubstrings(A, B, k)` returns exactly the set of distinct
strings of length at least `k` that occur contiguously in both texts *at a
left-maximal pair of positions* (at least one occurrence starts at offset 0,
or the characters immediately preceding the two occurrences differ).  Every
such string is in the returned set, and nothing else is. -/
theorem c1_amended (s1 s2 : List Char) (k : Nat) (hk : 1 ≤ k) (s : List Char) :
    s ∈ findCommonSubstrings s1 s2 k ↔
      k ≤ s.length ∧ leftMaxCommonOcc s1 s2 s :=
  mem_findCommonSubstrings hk

/-- Witness for `c1_amended` at a concrete input. -/
theorem c1_amended_witness :
    ['a', 'b'] ∈ findCommonSubstrings ['a', 'b'] ['a', 'b'] 1 :=
  (c1_amended ['a', 'b'] ['a', 'b'] 1 (by decide) ['a', 'b']).mpr
    ⟨by decide, 0, 0, ⟨by decide, by decide⟩, ⟨by decide, by decide⟩, Or.inl rfl⟩

/-- C2, counterexample.  The claim says `similarityMetric(A, B, k)` is
always in `[0, 1]`.  For `A = B = "ab"`, `k = 1` the distinct common
substrings are `"a"` and `"ab"`, total length 3, and the metric is
`3 / 2 = 1.5 > 1`. -/
theorem c2_counterexample :
    similarityMetric ['a', 'b'] ['a', 'b'] 1 = some (3 / 2 : ℚ) ∧
      ¬ ((3 / 2 : ℚ) ≤ 1) := by
  constructor
  · have h : similarityMetric ['a', 'b'] ['a', 'b'] 1 = some (mkRat 3 2) := by
      decide
    rw [h, Rat.mkRat_eq_div]
    norm_num
  · norm_num

/-- C2, amended.  Whenever at least one of the two texts is nonempty the
metric is a defined rational and is at least 0; the upper bound 1 does not
hold in general (lengths of distinct overlapping substrings are summed). -/
theorem c2_amended (s1 s2 : List Char) (k : Nat) (h : s1 ≠ [] ∨ s2 ≠ []) :
    ∃ q : ℚ, similarityMetric s1 s2 k = some q ∧ 0 ≤ q :=
  similarityMetric_nonneg s1 s2 k h

/-- Witness for `c2_amended` at a concrete input. -/
theorem c2_amended_witness :
    ∃ q : ℚ, similarityMetric ['a'] [] 5 = some q ∧ 0 ≤ q :=
  c2_amended ['a'] [] 5 (Or.inl (by decide))

/-- C3.  `editDistance(A, B)` is exactly the minimum number of
single-character insertions, deletions and substitutions transforming `A`
into `B`: a chain of `editDistance A B` edit steps from `A` to `B` exists,
and no shorter chain does; in particular
`editDistance "kitten" "sitting" = 3`. -/
theorem c3_editDistance_minimal :
    (∀ s1 s2 : List Char, Edits (editDistance s1 s2) s1 s2 ∧
      ∀ n, Edits n s1 s2 → editDistance s1 s2 ≤ n) ∧
    editDistance "kitten".toList "sitting".toList = 3 :=
  ⟨fun s1 s2 => ⟨editDistance_achieves s1 s2, fun _ h => editDistance_minimal h⟩,
    by decide⟩

/-- Witness for `c3_editDistance_minimal`: the minimality direction applied
to a concrete one-step chain. -/
theorem c3_witness : editDistance ['a', 'b'] ['a'] ≤ 1 := by
  apply (c3_editDistance_minimal.1 ['a', 'b'] ['a']).2 1
  have h : EditStep ['a', 'b'] ['a'] := by
    simpa using EditStep.del ['a'] [] 'b'
  exact Edits.step h (Edits.refl ['a'])

/-- C4.  On two empty texts, `editDistance` is the defined value 0, but
`similarityMetric` and `broderContainment` both evaluate `0.0 / 0.0` — an
IEEE NaN (modelled `none`), not the defined value `0.0` or a typed error
that the claim requires.  This confirms the code bug the specification
itself flags ("no guard present; must be fixed in reimplementation"). -/
theorem c4_empty_inputs :
    similarityMetric [] [] 5 = none ∧ broderContainment [] [] = none ∧
      editDistance [] [] = 0 :=
  ⟨by decide, by decide, by decide⟩

/-- C5, counterexample.  The claim asserts
`similarityMetric(A, A, k) = 1.0` for every `k ≤ len(A)`.  For `A = "aba"`,
`k = 1` the distinct common substrings are `"a"`, `"ab"`, `"aba"` with total
length 6, and the metric is `6 / 3 = 2 ≠ 1`. -/
theorem c5_counterexample :
    1 ≤ ("aba".toList).length ∧
      similarityMetric "aba".toList "aba".toList 1 = some (2 : ℚ) ∧
      (2 : ℚ) ≠ 1 := by
  refine ⟨by decide, ?_, by norm_num⟩
  have h : similarityMetric "aba".toList "aba".toList 1 = some (mkRat 6 3) := by
    decide
  rw [h, Rat.mkRat_eq_div]
  norm_num

/-- C5, amended.  `editDistance(A, A) = 0` for every `A`;
`broderContainment(A, A) = 1.0` for every nonempty `A` (on the empty text it
is NaN, `0.0/0.0`); and for `1 ≤ k ≤ len(A)` the self-similarity
`similarityMetric(A, A, k)` is defined and at least `1.0` (the whole text is
a common substring, but further substrings can push the sum past
`len(A)`, so equality with 1.0 does not hold in general). -/
theorem c5_amended (A : List Char) (k : Nat) :
    editDistance A A = 0 ∧
      (A ≠ [] → broderContainment A A = some 1) ∧
      (1 ≤ k → k ≤ A.length →
        ∃ q : ℚ, similarityMetric A A k = some q ∧ 1 ≤ q) :=
  ⟨editDistance_self A, broderContainment_self A,
    similarityMetric_self_ge_one A k⟩

/-- Witness for `c5_amended` at a concrete input. -/
theorem c5_amended_witness :
    editDistance ['a', 'b'] ['a', 'b'] = 0 ∧
      broderContainment ['a', 'b'] ['a', 'b'] = some 1 ∧
      ∃ q : ℚ, similarityMetric ['a', 'b'] ['a', 'b'] 2 = some q ∧ 1 ≤ q :=
  ⟨(c5_amended ['a', 'b'] 2).1, (c5_amended ['a', 'b'] 2).2.1 (by decide),
    (c5_amended ['a', 'b'] 2).2.2 (by decide) (by decide)⟩

/-- C6.  For every document vector and minimum length, the matrix
returned by `generateSimilarityMatrix` is symmetric and has zero diagonal:
`matrix[i][j] = matrix[j][i]` and `matrix[i][i] = 0.0` for all valid
indices. -/
theorem c6_matrix_symmetric_zero_diagonal (documents : List (List Char))
    (minLength : Nat) :
    (∀ i j, i < documents.length → j < documents.length →
      matrixGet (generateSimilarityMatrix documents minLength) i j =
        matrixGet (generateSimilarityMatrix documents minLength) j i) ∧
    (∀ i, i < documents.length →
      matrixGet (generateSimilarityMatrix documents minLength) i i = some 0) := by
  constructor
  · intro i j hi hj
    rw [matrixGet_generate documents minLength hi hj,
      matrixGet_generate documents minLength hj hi]
    exact matrixEntry_symm documents minLength i j
  · intro i hi
    rw [matrixGet_generate documents minLength hi hi, matrixEntry]
    rw [if_neg (by omega), if_neg (by omega)]

/-- Witness for `c6_matrix_symmetric_zero_diagonal` at a concrete input. -/
theorem c6_witness :
    matrixGet (generateSimilarityMatrix [['a'], ['b']] 5) 0 1 =
      matrixGet (generateSimilarityMatrix [['a'], ['b']] 5) 1 0 ∧
    matrixGet (generateSimilarityMatrix [['a'], ['b']] 5) 0 0 = some 0 :=
  ⟨(c6_matrix_symmetric_zero_diagonal [['a'], ['b']] 5).1 0 1
      (by decide) (by decide),
    (c6_matrix_symmetric_zero_diagonal [['a'], ['b']] 5).2 0 (by decide)⟩

/-- C7, counterexample.  The claim asserts the matrix values along the
sorted pair list are always non-increasing.  With the corpus
`["", "ab", "ab", "ab", ""]` and minimum length 1, documents 0 and 4 are
both empty, so cell `(0,4)` is NaN; the comparator (`>` on doubles, false
on every NaN comparison) is then not a strict weak ordering and the sort
places pair `(0,1)` (value 0) before pair `(1,2)` (value 3/2): even the
defined values along the output are not non-increasing. -/
theorem c7_counterexample :
    ¬ List.Pairwise (fun p q : Nat × Nat =>
      oLe (matrixGet (generateSimilarityMatrix
            [[], "ab".toList, "ab".toList, "ab".toList, []] 1) q.1 q.2)
          (matrixGet (generateSimilarityMatrix
            [[], "ab".toList, "ab".toList, "ab".toList, []] 1) p.1 p.2))
      (rankedPairs [[], "ab".toList, "ab".toList, "ab".toList, []] 1) := by
  intro h
  have h2 := (List.pairwise_iff_getElem.mp h) 0 4 (by decide) (by decide) (by decide)
  revert h2
  decide

/-- C7, amended.  The ranked pair list is always a permutation of the
list of all pairs `(i, j)` with `i < j < n`, which has no duplicates and no
omissions.  Provided no two documents of the corpus are both empty (so that
every matrix value is a defined number rather than NaN and the comparator is
a strict weak ordering), the matrix values along the sorted list are
non-increasing. -/
theorem c7_ranking (documents : List (List Char)) (minLength : Nat) :
    List.Perm (rankedPairs documents minLength) (allPairs documents.length) ∧
    (allPairs documents.length).Nodup ∧
    (∀ p : Nat × Nat,
      p ∈ allPairs documents.length ↔ p.1 < p.2 ∧ p.2 < documents.length) ∧
    ((∀ i j, i < j → j < documents.length →
        documents.getD i [] ≠ [] ∨ documents.getD j [] ≠ []) →
      List.Pairwise (fun p q : Nat × Nat =>
        oLe (matrixGet (generateSimilarityMatrix documents minLength) q.1 q.2)
            (matrixGet (generateSimilarityMatrix documents minLength) p.1 p.2))
        (rankedPairs documents minLength)) :=
  ⟨List.perm_insertionSort _ _, allPairs_nodup documents.length,
    fun _ => mem_allPairs, rankedPairs_sorted documents minLength⟩

/-- Witness for `c7_ranking` at a concrete input, discharging the
no-two-empty-documents hypothesis. -/
theorem c7_ranking_witness :
    List.Perm (rankedPairs [['a'], ['b']] 5) (allPairs 2) ∧
    List.Pairwise (fun p q : Nat × Nat =>
      oLe (matrixGet (generateSimilarityMatrix [['a'], ['b']] 5) q.1 q.2)
          (matrixGet (generateSimilarityMatrix [['a'], ['b']] 5) p.1 p.2))
      (rankedPairs [['a'], ['b']] 5) := by
  refine ⟨(c7_ranking [['a'], ['b']] 5).1, ?_⟩
  apply (c7_ranking [['a'], ['b']] 5).2.2.2
  intro i j hij hj
  simp only [List.length_cons, List.length_nil] at hj
  have hi0 : i = 0 := by omega
  have hj1 : j = 1 := by omega
  subst hi0
  subst hj1
  left
  decide

/-- C8.  The similarity metric is symmetric in its two text arguments:
the set of strings it sums over is the same for `(A, B)` and `(B, A)`, and
the denominator `max(|A|, |B|)` is symmetric; NaN (both texts empty) arises
symmetrically too. -/
theorem c8_similarity_symmetric (s1 s2 : List Char) (k : Nat) :
    similarityMetric s1 s2 k = similarityMetric s2 s1 k :=
  similarityMetric_symm s1 s2 k

/-- C9.  The edit distance satisfies the triangle inequality: an optimal
chain from `A` to `B` followed by an optimal chain from `B` to `C` is a
chain from `A` to `C`, and `editDistance` is minimal over chains. -/
theorem c9_triangle_inequality (A B C : List Char) :
    editDistance A C ≤ editDistance A B + editDistance B C :=
  editDistance_minimal ((editDistance_achieves A B).trans
    (editDistance_achieves B C))

/-- C10.  Soundness of `findCommonSubstrings`: for `k ≥ 1` the returned
vector has no duplicate elements (it comes out of an `unordered_set`), and
every returned string has length at least `k` and occurs contiguously,
character-for-character, in both texts. -/
theorem c10_soundness (s1 s2 : List Char) (k : Nat) (hk : 1 ≤ k) :
    (findCommonSubstrings s1 s2 k).Nodup ∧
    ∀ s ∈ findCommonSubstrings s1 s2 k,
      k ≤ s.length ∧ occursIn s s1 ∧ occursIn s s2 := by
  refine ⟨findCommonSubstrings_nodup s1 s2 k, ?_⟩
  intro s hs
  rw [mem_findCommonSubstrings hk] at hs
  obtain ⟨hlen, p, q, hp, hq, _⟩ := hs
  exact ⟨hlen, ⟨p, hp⟩, ⟨q, hq⟩⟩

/-- Witness for `c10_soundness` at a concrete input. -/
theorem c10_witness :
    (findCommonSubstrings ['a', 'b'] ['a', 'b'] 1).Nodup ∧
    ∀ s ∈ findCommonSubstrings ['a', 'b'] ['a', 'b'] 1,
      1 ≤ s.length ∧ occursIn s ['a', 'b'] ∧ occursIn s ['a', 'b'] :=
  c10_soundness ['a', 'b'] ['a', 'b'] 1 (by decide)

end PlagiarismDetector
